import Mathlib

/-!
Verification development for the ExplainCLI project-indexing and heuristic
trace engine (`src/services/ProjectIndexer.ts`, `src/services/CodeTracer.ts`,
`src/config/config.ts`).

The TypeScript sources are shallowly embedded: JavaScript strings become
`String`, `undefined`-able values become `Option`, the filesystem becomes an
association list from absolute path to file content, and Node's ambient
`process.cwd()` becomes an explicit parameter.  The specific JavaScript
regular expressions used by the sources are embedded as handwritten
deterministic matchers over `List Char` that implement the same
leftmost-match, greedy-with-backtracking semantics for exactly those
patterns.  Asynchronous code has no concurrency here (every `await` is
sequential), so it is embedded as plain sequential code; the only `throw`
site reachable in the tracer (`fs.readFile`) is modelled by lookup failure.
-/

namespace ExplainCLI

/-! ## JavaScript character classes and basic string utilities -/

/-- JavaScript `\s` (ASCII portion, which is all our inputs use). -/
def isWsChar (c : Char) : Bool :=
  c = ' ' || c = '\t' || c = '\n' || c = '\r' || c = '\x0b' || c = '\x0c'

/-- JavaScript `\w`: `[A-Za-z0-9_]`. -/
def isWordChar (c : Char) : Bool :=
  ('a' ≤ c && c ≤ 'z') || ('A' ≤ c && c ≤ 'Z') || ('0' ≤ c && c ≤ '9') || c = '_'

/-- A quote character, the class `['"]`. -/
def isQuoteChar (c : Char) : Bool :=
  c = '\'' || c = '"'

/-- Decides whether `pre` is a leading segment of `l` (executable). -/
def listStartsWith : List Char → List Char → Bool
  | [], _ => true
  | _ :: _, [] => false
  | p :: ps, c :: cs => p = c && listStartsWith ps cs

/-- Decides whether `needle` occurs as a contiguous sublist of `hay`. -/
def listContainsSub (needle hay : List Char) : Bool :=
  match hay with
  | [] => listStartsWith needle []
  | _ :: t => listStartsWith needle hay || listContainsSub needle t

/-- JavaScript `hay.includes(needle)`. -/
def containsSub (hay needle : String) : Bool :=
  listContainsSub needle.data hay.data

/-- Decides whether `pre` leads `s` (JavaScript `startsWith`, and kernel
reducible, unlike `String.startsWith`). -/
def strStartsWith (s pre : String) : Bool :=
  listStartsWith pre.data s.data

/-- ASCII lowering of one character (all inputs in this repo are ASCII,
where JavaScript `toLowerCase` and this function agree). -/
def charLower (c : Char) : Char :=
  if 'A' ≤ c && c ≤ 'Z' then Char.ofNat (c.toNat + 32) else c

/-- JavaScript `toLowerCase`, ASCII fragment. -/
def jsToLower (s : String) : String :=
  String.mk (s.data.map charLower)

/-- JavaScript `split(sep)` for a single-character separator (kernel
reducible, unlike `String.splitOn`): pieces between separator
occurrences, with empty pieces kept. -/
def splitCharAux (sep : Char) : List Char → List Char → List String
  | [], curr => [String.mk curr.reverse]
  | c :: cs, curr =>
    if c = sep then String.mk curr.reverse :: splitCharAux sep cs []
    else splitCharAux sep cs (c :: curr)

def splitChar (sep : Char) (s : String) : List String :=
  splitCharAux sep s.data []

/-- JavaScript `content.split('\n')`. -/
def splitLines (s : String) : List String := splitChar '\n' s

/-- Index (in characters) of the first occurrence of `needle` in `hay`;
used only to state source-order facts about concrete strings. -/
def firstPosAux (needle : List Char) : List Char → Nat → Option Nat
  | [], i => if listStartsWith needle [] then some i else none
  | c :: t, i => if listStartsWith needle (c :: t) then some i else firstPosAux needle t (i + 1)

def firstPos (hay needle : String) : Option Nat :=
  firstPosAux needle.data hay.data 0

/-! ## POSIX path model (Node `path` module, posix flavour)

The repository only ever manipulates POSIX-style paths built from `/`
separators.  We model `path.join`, `path.resolve`, `path.dirname`,
`path.relative`, `path.extname` and `path.basename` on such paths. -/

/-- Split a path into raw segments on `/`. -/
def splitSlash (s : String) : List String := splitChar '/' s

def strIsAbs (s : String) : Bool := strStartsWith s "/"

/-- Normalize a segment list: drop empty and `.` segments, let `..` pop a
previous real segment; for absolute paths excess `..` at the root vanishes,
for relative paths leading `..` segments are kept.  `acc` holds processed
segments in reverse. -/
def normAux (isab : Bool) : List String → List String → List String
  | acc, [] => acc.reverse
  | acc, s :: rest =>
    if s = "" || s = "." then normAux isab acc rest
    else if s = ".." then
      match acc with
      | [] => if isab then normAux isab [] rest else normAux isab [".."] rest
      | a :: acc' =>
        if a = ".." then normAux isab (s :: a :: acc') rest
        else normAux isab acc' rest
    else normAux isab (s :: acc) rest

/-- Normalized segment list of a path string (given its absoluteness). -/
def normSegsOf (s : String) : List String :=
  normAux (strIsAbs s) [] (splitSlash s)

/-- Rebuild a path string from normalized segments. -/
def joinSegs (isab : Bool) (segs : List String) : String :=
  match segs with
  | [] => if isab then "/" else "."
  | _ => (if isab then "/" else "") ++ String.intercalate "/" segs

/-- Node `path.posix.normalize` (restricted to the inputs the repo builds:
no trailing-slash preservation, which the repo never relies on). -/
def pathNormalize (s : String) : String :=
  joinSegs (strIsAbs s) (normSegsOf s)

/-- Node `path.posix.join(a, b)` for a nonempty first argument: concatenate
with a separator and normalize; absoluteness comes from `a`. -/
def pathJoin (a b : String) : String :=
  pathNormalize (a ++ "/" ++ b)

/-- Node `path.posix.resolve(dir, p)` with the ambient working directory
`cwd` made explicit: the rightmost absolute base wins, then normalize. -/
def pathResolve (cwd dir p : String) : String :=
  if strIsAbs p then pathNormalize p
  else if strIsAbs dir then pathNormalize (dir ++ "/" ++ p)
  else pathNormalize (cwd ++ "/" ++ dir ++ "/" ++ p)

/-- Resolve a single path against the working directory. -/
def pathResolve1 (cwd p : String) : String :=
  if strIsAbs p then pathNormalize p else pathNormalize (cwd ++ "/" ++ p)

/-- Node `path.posix.dirname`: cut at the last non-trailing separator
(the exact Node algorithm: scan from the end past trailing content,
remember the first separator met after having seen content). -/
def dirnameAux : List Char → Bool → Option (List Char)
  | [], _ => none
  | c :: rest, seenContent =>
    -- we walk the reversed character list (i.e. from the end of the path)
    if c = '/' then
      if seenContent then some rest.reverse else dirnameAux rest seenContent
    else dirnameAux rest true

def pathDirname (s : String) : String :=
  match dirnameAux s.data.reverse false with
  | some [] => if strIsAbs s then "/" else "."
  | some cs => String.mk cs
  | none => if strIsAbs s then "/" else "."

/-- Node `path.posix.relative(from, to)` with explicit `cwd`: resolve both,
drop the common segment prefix, then go up with `..` and down into `to`. -/
def dropCommonSegs : List String → List String → List String × List String
  | [], bs => ([], bs)
  | as, [] => (as, [])
  | a :: as, b :: bs =>
    if a = b then dropCommonSegs as bs else (a :: as, b :: bs)

def pathRelative (cwd fromP toP : String) : String :=
  let fromSegs := normSegsOf (pathResolve1 cwd fromP)
  let toSegs := normSegsOf (pathResolve1 cwd toP)
  let (fr, tr) := dropCommonSegs fromSegs toSegs
  String.intercalate "/" (List.replicate fr.length ".." ++ tr)

/-- Node `path.posix.basename` (no trailing-slash inputs in this repo). -/
def afterLastSlash : List Char → List Char → List Char
  | [], acc => acc.reverse
  | c :: rest, acc =>
    if c = '/' then afterLastSlash rest []
    else afterLastSlash rest (c :: acc)

def pathBasename (s : String) : String :=
  String.mk (afterLastSlash s.data [])

/-- Node `path.posix.extname`: the suffix of the basename from its last
dot, provided that dot is not the basename's first character. -/
def pathExtname (s : String) : String :=
  let base := (afterLastSlash s.data []).reverse  -- basename, reversed
  let revExt := base.takeWhile (fun c => c ≠ '.')
  let rest := base.dropWhile (fun c => c ≠ '.')
  match rest with
  | [] => ""                      -- no dot at all
  | _ :: before =>
    if before = [] then ""        -- the dot is the first character
    else String.mk ('.' :: revExt.reverse)

/-! ## Embedded regular-expression matchers

Each JavaScript regex literal appearing in the sources is embedded as a
matcher `List Char → Option (String × List Char)` returning the captured
group and the remaining input after the match.  `scanFirst` mirrors
`String.prototype.match` (first match, scanning positions left to right);
`scanAll` mirrors a `RegExp.exec` loop with the `g` flag (repeated
leftmost matches, resuming after each match). -/

/-- Expect a literal character sequence, return the rest. -/
def pLit : List Char → List Char → Option (List Char)
  | [], cs => some cs
  | _ :: _, [] => none
  | l :: ls, c :: cs => if l = c then pLit ls cs else none

/-- Matches `\s*`: drop leading whitespace. -/
def pWsStar (cs : List Char) : List Char := cs.dropWhile isWsChar

/-- Matches `\s+`: at least one whitespace character, maximal run. -/
def pWsPlus (cs : List Char) : Option (List Char) :=
  match cs with
  | c :: _ => if isWsChar c then some (cs.dropWhile isWsChar) else none
  | [] => none

/-- Matches a quote class, one quote character of either kind. -/
def pQuote : List Char → Option (List Char)
  | c :: cs => if isQuoteChar c then some cs else none
  | [] => none

/-- Captures a maximal nonempty run of non-quote characters. -/
def pCapNoQuote (cs : List Char) : Option (String × List Char) :=
  let cap := cs.takeWhile (fun c => !isQuoteChar c)
  if cap = [] then none else some (String.mk cap, cs.dropWhile (fun c => !isQuoteChar c))

/-- Captures a maximal nonempty run of word characters. -/
def pWordPlus (cs : List Char) : Option (String × List Char) :=
  let cap := cs.takeWhile isWordChar
  if cap = [] then none else some (String.mk cap, cs.dropWhile isWordChar)

/-- Captures a maximal nonempty run of non-whitespace characters. -/
def pNonWsPlus (cs : List Char) : Option (String × List Char) :=
  let cap := cs.takeWhile (fun c => !isWsChar c)
  if cap = [] then none else some (String.mk cap, cs.dropWhile (fun c => !isWsChar c))

/-- Length of the leading whitespace run. -/
def wsCount (cs : List Char) : Nat := (cs.takeWhile isWsChar).length

/-- Length of the leading run of characters the JavaScript dot can match
(everything except line terminators). -/
def dotRunLen (cs : List Char) : Nat :=
  (cs.takeWhile (fun c => c ≠ '\n' && c ≠ '\r')).length

/-- Matches `\s+from\s+` and then a quoted capture, anchored at the head of the input. -/
def pFromTail (cs : List Char) : Option (String × List Char) := do
  let r1 ← pWsPlus cs
  let r2 ← pLit "from".data r1
  let r3 ← pWsPlus r2
  let r4 ← pQuote r3
  let (cap, r5) ← pCapNoQuote r4
  let r6 ← pQuote r5
  some (cap, r6)

/-- Backtracking for a greedy `.*` followed by `pFromTail`: try the longest
extent of the dot-run first (`k` characters consumed by `.*`), shrinking
one character at a time, exactly as the regex engine does. -/
def tryFromK : Nat → List Char → Option (String × List Char)
  | 0, cs => pFromTail cs
  | k + 1, cs =>
    match pFromTail (cs.drop (k + 1)) with
    | some r => some r
    | none => tryFromK k cs

/-- Matches a quoted capture, anchored at the head of the input. -/
def pQuotedCap (cs : List Char) : Option (String × List Char) := do
  let r1 ← pQuote cs
  let (cap, r2) ← pCapNoQuote r1
  let r3 ← pQuote r2
  some (cap, r3)

/-- After `import` and a chosen whitespace extent: the body of
`(?:.*\s+from\s+)?['"]([^'"]+)['"]` when `optGroup` is `true` (the
indexer's regex) or of `.*\s+from\s+['"]([^'"]+)['"]` when `false`
(the tracer's regex, where the group is mandatory). -/
def importAttempt (optGroup : Bool) (cs : List Char) : Option (String × List Char) :=
  match tryFromK (dotRunLen cs) cs with
  | some r => some r
  | none => if optGroup then pQuotedCap cs else none

/-- Backtracking over the extent of the `\s+` that follows `import`:
the engine prefers the maximal whitespace run and gives characters back
to the following `.*` one at a time; every prefix of length `1..wsMax`
of the input here is whitespace by construction of the initial call. -/
def tryImportWs (optGroup : Bool) : Nat → List Char → Option (String × List Char)
  | 0, _ => none
  | w + 1, cs =>
    match importAttempt optGroup (cs.drop (w + 1)) with
    | some r => some r
    | none => tryImportWs optGroup w cs

/-- Embeds the regex `import\s+(?:.*\s+from\s+)?` plus quoted capture from
`ProjectIndexer.extractImports`, anchored at the head of the input. -/
def matchImportIndexer (cs : List Char) : Option (String × List Char) := do
  let r ← pLit "import".data cs
  tryImportWs true (wsCount r) r

/-- Embeds the regex `import\s+.*\s+from\s+` plus quoted capture from
`CodeTracer.findImports`, anchored at the head of the input. -/
def matchImportTracer (cs : List Char) : Option (String × List Char) := do
  let r ← pLit "import".data cs
  tryImportWs false (wsCount r) r

/-- Embeds the regex `require\s*\(\s*` plus quoted capture plus `\s*\)`, anchored. -/
def matchRequire (cs : List Char) : Option (String × List Char) := do
  let r1 ← pLit "require".data cs
  let r2 ← pLit "(".data (pWsStar r1)
  let (cap, r3) ← pQuotedCap (pWsStar r2)
  let r4 ← pLit ")".data (pWsStar r3)
  some (cap, r4)

/-- Embeds the regex `from\s+` plus quoted capture, anchored. -/
def matchFromQuoted (cs : List Char) : Option (String × List Char) := do
  let r1 ← pLit "from".data cs
  let r2 ← pWsPlus r1
  pQuotedCap r2

/-- Embeds the import-names regex with a braces-or-word alternation: the
value is group 1 when the brace alternative matches, group 2 otherwise
(the source reads `match[1] || match[2]`). -/
def matchImportNames (cs : List Char) : Option (String × List Char) := do
  let r1 ← pLit "import".data cs
  let r2 ← pWsPlus r1
  match r2 with
  | '{' :: r3 =>
    let cap := r3.takeWhile (fun c => c ≠ '}')
    match r3.dropWhile (fun c => c ≠ '}') with
    | '}' :: r4 => if cap = [] then none else some (String.mk cap, r4)
    | _ => none          -- no closing brace: the `\w+` arm also fails at `{`
  | _ => pWordPlus r2

/-- Embeds the regex `new\s+(\w+)`, anchored. -/
def matchNew (cs : List Char) : Option (String × List Char) := do
  let r1 ← pLit "new".data cs
  let r2 ← pWsPlus r1
  pWordPlus r2

/-- Embeds the regex `class\s+(\w+)`, anchored. -/
def matchClass (cs : List Char) : Option (String × List Char) := do
  let r1 ← pLit "class".data cs
  let r2 ← pWsPlus r1
  pWordPlus r2

/-- Embeds the regex `(?:function|const)\s+(\w+)`, anchored (the two
literal alternatives start with different characters, so at most one
applies). -/
def matchFuncConst (cs : List Char) : Option (String × List Char) := do
  let r1 ← match pLit "function".data cs with
           | some r => some r
           | none => pLit "const".data cs
  let r2 ← pWsPlus r1
  pWordPlus r2

/-- Embeds the regex `\.(\w+)\(`, anchored. -/
def matchMethod (cs : List Char) : Option (String × List Char) := do
  let r1 ← pLit ".".data cs
  let (cap, r2) ← pWordPlus r1
  let r3 ← pLit "(".data r2
  some (cap, r3)

/-- Embeds the regex `export\s+(?:default\s+)?(\w+)`, anchored: the engine first tries
the optional `default\s+` prefix and falls back to matching `(\w+)`
directly when the rest fails after it. -/
def matchExport (cs : List Char) : Option (String × List Char) := do
  let r1 ← pLit "export".data cs
  let r2 ← pWsPlus r1
  let withDefault := do
    let r3 ← pLit "default".data r2
    let r4 ← pWsPlus r3
    pWordPlus r4
  match withDefault with
  | some r => some r
  | none => pWordPlus r2

/-- Embeds the regex `(?:const|let|var)?\s*(\w+)\s*=`, anchored: the optional keyword
alternatives are tried in order, then the keyword-less form. -/
def matchAssign (cs : List Char) : Option (String × List Char) :=
  let tail := fun (r : List Char) => do
    let (cap, r2) ← pWordPlus (pWsStar r)
    let r3 ← pLit "=".data (pWsStar r2)
    some (cap, r3)
  match pLit "const".data cs |>.bind tail with
  | some r => some r
  | none =>
    match pLit "let".data cs |>.bind tail with
    | some r => some r
    | none =>
      match pLit "var".data cs |>.bind tail with
      | some r => some r
      | none => tail cs

/-- Embeds the Python import regex (a from-import or plain-import alternation) from the Python arm of
`extractImports`; the value is `match[1] || match[2]`. -/
def matchPythonImport (cs : List Char) : Option (String × List Char) :=
  let branch1 := do
    let r1 ← pLit "from".data cs
    let r2 ← pWsPlus r1
    let (cap, r3) ← pNonWsPlus r2
    let r4 ← pWsPlus r3
    let r5 ← pLit "import".data r4
    some (cap, r5)
  match branch1 with
  | some r => some r
  | none => do
    let r1 ← pLit "import".data cs
    let r2 ← pWsPlus r1
    pNonWsPlus r2

/-- JavaScript `str.match(re)`: first match scanning positions left to
right, returning the captured group. -/
def scanFirst (m : List Char → Option (String × List Char)) : List Char → Option String
  | [] => none
  | c :: cs =>
    match m (c :: cs) with
    | some (v, _) => some v
    | none => scanFirst m cs

/-- A `re.exec` loop with the `g` flag: repeated leftmost matches,
resuming after the end of each match.  All embedded matchers consume at
least one character on success, so input length bounds the iteration
count and is used as fuel. -/
def scanAllAux (m : List Char → Option (String × List Char)) : Nat → List Char → List String
  | 0, _ => []
  | _ + 1, [] => []
  | fuel + 1, c :: cs =>
    match m (c :: cs) with
    | some (v, rest) => v :: scanAllAux m fuel rest
    | none => scanAllAux m fuel cs

def scanAll (m : List Char → Option (String × List Char)) (s : String) : List String :=
  scanAllAux m s.data.length s.data

/-! ## Data model (`src/types/index.ts`) -/

structure ProjectFile where
  path : String
  size : Nat
  language : Option String := none
  content : Option String := none
  preview : Option String := none
  isEntry : Bool := false
  imports : List String := []
  exports : List String := []
deriving Repr, DecidableEq

structure IndexedProject where
  root : String
  name : String
  files : List ProjectFile
  entryPoints : List String
  frameworks : List String := []
  languages : List String := []
  importGraph : List (String × List String) := []
  totalSize : Nat := 0
deriving Repr, DecidableEq

structure WalkthroughStep where
  index : Nat
  file : String
  lineRange : Nat × Nat
  code : String
  explanation : String
  whyRelevant : String
  linksTo : List String := []
deriving Repr, DecidableEq

structure Config where
  apiKey : String
  model : String
  debug : Bool
  cacheDir : Option String := none
  maxFileSize : Nat
  maxContextSize : Nat
deriving Repr, DecidableEq

/-! ## Configuration (`src/config/config.ts`) -/

/-- JavaScript `process.env.X || defaultValue`: the default applies both
when the variable is unset and when it is the (falsy) empty string. -/
def envOr (env : List (String × String)) (key defaultValue : String) : String :=
  match (env.find? (fun p => p.1 = key)).map (fun p => p.2) with
  | some v => if v = "" then defaultValue else v
  | none => defaultValue

/-- Decimal numeral parser standing in for JavaScript `parseInt(s, 10)`
on plain numerals (`NaN` from a non-numeric value is outside the model). -/
def parseDecAux : List Char → Nat → Option Nat
  | [], acc => some acc
  | c :: cs, acc =>
    if '0' ≤ c && c ≤ '9' then parseDecAux cs (acc * 10 + (c.toNat - 48)) else none

def parseDec (s : String) : Option Nat :=
  match s.data with
  | [] => none
  | _ => parseDecAux s.data 0

/-- Embeds `loadConfig`; the process environment and `os.homedir()` are
explicit parameters. -/
def loadConfig (env : List (String × String)) (home : String) : Config :=
  { apiKey := envOr env "GEMINI_API_KEY" "",
    model := "gemini-2.5-pro",
    debug := (env.find? (fun p => p.1 = "DEBUG")).map (fun p => p.2) = some "true",
    cacheDir := some (envOr env "CACHE_DIR" (pathJoin home ".explain-cli-cache")),
    maxFileSize := (parseDec (envOr env "MAX_FILE_SIZE" "1048576")).getD 1048576,
    maxContextSize := (parseDec (envOr env "MAX_CONTEXT_SIZE" "10485760")).getD 10485760 }

/-! ## Project indexer (`src/services/ProjectIndexer.ts`) -/

def langMap : List (String × String) :=
  [(".ts", "typescript"), (".tsx", "typescript"),
   (".js", "javascript"), (".jsx", "javascript"),
   (".py", "python"), (".java", "java"), (".go", "go"), (".rs", "rust"),
   (".cpp", "cpp"), (".c", "c"), (".cs", "csharp"), (".rb", "ruby"),
   (".php", "php"), (".swift", "swift"), (".kt", "kotlin")]

def getLanguageFromExt (ext : String) : Option String :=
  (langMap.find? (fun p => p.1 = ext)).map (fun p => p.2)

def entryPatterns : List String :=
  ["index.js", "index.ts", "index.tsx",
   "main.js", "main.ts", "main.tsx",
   "app.js", "app.ts", "app.tsx",
   "server.js", "server.ts",
   "__main__.py", "main.py", "app.py",
   "Main.java", "main.go", "main.rs"]

def isEntryPoint (filePath : String) : Bool :=
  entryPatterns.contains (pathBasename filePath)

/-- Embeds `ProjectIndexer.extractImports`: for JavaScript/TypeScript the
ES6-import pattern is run over the whole content first, then the
CommonJS-require pattern; for Python the combined pattern; for every
other language the result is empty. -/
def extractImports (content : String) (language : String) : List String :=
  if language = "javascript" || language = "typescript" then
    scanAll matchImportIndexer content ++ scanAll matchRequire content
  else if language = "python" then
    scanAll matchPythonImport content
  else []

/-- One directory entry as seen by `discoverFiles` after `globby`: the
relative path, the `fs.stat` size, and the result of `fs.readFile`
(`none` models a read failure). -/
structure FsEntry where
  path : String
  size : Nat
  read : Option String
deriving Repr, DecidableEq

/-- Embeds the per-file body of `ProjectIndexer.discoverFiles` (the glob
discovery itself is the external `globby` library; its output is the
`entries` parameter).  Note the content-read ceiling is the literal
`100000` from the source, not a configuration field. -/
def discoverFiles (cfg : Config) (entries : List FsEntry) : List ProjectFile :=
  entries.filterMap (fun e =>
    if e.size > cfg.maxFileSize then none
    else
      let ext := pathExtname e.path
      let language := getLanguageFromExt ext
      let content := if language.isSome && e.size < 100000 then e.read else none
      let preview := content.map (fun c => String.intercalate "\n" ((splitLines c).take 5))
      some { path := e.path, size := e.size, language := language, content := content,
             preview := preview, isEntry := isEntryPoint e.path })

/-! ## Code tracer (`src/services/CodeTracer.ts`) -/

def commonWords : List String :=
  ["where", "is", "the", "how", "what", "when", "why", "does",
   "do", "in", "of", "a", "an", "to", "from", "with", "for",
   "implemented", "used", "works", "located", "defined"]

/-- JavaScript `replace(/[?.,!]/g, '')`: every occurrence of the four
punctuation characters is removed, wherever it occurs. -/
def stripPunct (s : String) : String :=
  String.mk (s.data.filter (fun c => !(c = '?' || c = '.' || c = ',' || c = '!')))

/-- JavaScript `split(/\s+/)`: pieces between maximal whitespace runs,
with an empty leading piece when the string starts with whitespace and an
empty trailing piece when it ends with one.  `curr` is the current piece
reversed; `inRun` records that the previous character was whitespace. -/
def splitWsAux : List Char → List Char → Bool → List String
  | [], curr, _ => [String.mk curr.reverse]
  | c :: cs, curr, inRun =>
    if isWsChar c then
      if inRun then splitWsAux cs curr true
      else String.mk curr.reverse :: splitWsAux cs [] true
    else splitWsAux cs (c :: curr) false

def splitWsJS (s : String) : List String := splitWsAux s.data [] false

/-- Embeds `CodeTracer.extractKeywords`. -/
def extractKeywords (question : String) : List String :=
  (splitWsJS (stripPunct (jsToLower question))).filter
    (fun word => word.length > 2 && !commonWords.contains word)

/-- Embeds the explanation decision table of `extractRelevantSpans`
(lines 100–141 of `CodeTracer.ts`), producing the pair
`(explanation, whyRelevant)` for a relevant line and its keyword. -/
def mkExplanation (line keyword : String) : String × String :=
  if containsSub line "import" && containsSub line "from" then
    let imported := (scanFirst matchImportNames line.data).getD "module"
    let m := (scanFirst matchFromQuoted line.data).getD "module"
    ("Imports " ++ imported ++ " from " ++ m,
     "This brings in the " ++ keyword ++ " functionality needed for this feature")
  else if containsSub line "require" then
    let m := (scanFirst matchRequire line.data).getD "module"
    ("Loads " ++ m ++ " using CommonJS",
     "This loads the " ++ keyword ++ " module for use in this file")
  else if containsSub line "new " then
    let c := (scanFirst matchNew line.data).getD "class"
    ("Creates new instance of " ++ c,
     "This initializes the " ++ keyword ++ " service that will handle the main functionality")
  else if containsSub line "class " then
    let c := (scanFirst matchClass line.data).getD "class"
    ("Defines " ++ c ++ " class",
     "This class encapsulates the " ++ keyword ++ " logic and methods")
  else if containsSub line "function " || (containsSub line "const " && containsSub line "=>") then
    let f := (scanFirst matchFuncConst line.data).getD "function"
    ("Defines " ++ f ++ " function",
     "This function handles " ++ keyword ++ "-related operations")
  else if containsSub line "await " || containsSub line ".then" then
    ("Async call involving " ++ keyword,
     "This performs an asynchronous " ++ keyword ++ " operation and waits for the result")
  else if (scanFirst matchMethod line.data).isSome then
    let m := (scanFirst matchMethod line.data).getD "method"
    ("Calls " ++ m ++ " method",
     "This invokes the " ++ keyword ++ " API to perform the requested action")
  else if containsSub line "export " then
    let e := (scanFirst matchExport line.data).getD "component"
    ("Exports " ++ e,
     "This makes the " ++ keyword ++ " functionality available to other modules")
  else if containsSub line "=" && !containsSub line "==" then
    let v := (scanFirst matchAssign line.data).getD "variable"
    ("Assigns value to " ++ v,
     "This stores " ++ keyword ++ " configuration or data for later use")
  else
    ("Uses " ++ keyword ++ " in code logic",
     "This line contains logic that directly involves " ++ keyword)

/-- Embeds the inner keyword loop of `extractRelevantSpans`: the keywords
are tried in order, the first case-insensitive substring match sets the
explanation pair and breaks out of the loop. -/
def scanKeywords (line : String) : List String → Option (String × String)
  | [] => none
  | kw :: rest =>
    if containsSub (jsToLower line) (jsToLower kw) then some (mkExplanation line kw)
    else scanKeywords line rest

/-- Embeds `CodeTracer.findLinkedFiles` (the `currentFile` parameter is
unused in the source as well). -/
def findLinkedFiles (line : String) (currentFile : String) : List String :=
  (match scanFirst matchFromQuoted line.data with | some i => [i] | none => []) ++
  (match scanFirst matchRequire line.data with | some r => [r] | none => [])

/-- JavaScript `lines.slice(a, b + 1).join('\n')`. -/
def sliceJoin (lines : List String) (a b : Nat) : String :=
  String.intercalate "\n" ((lines.drop a).take (b + 1 - a))

/-- The per-line loop of `extractRelevantSpans`: `i` is the current line
number, `count` the number of steps already pushed (the JS `steps.length`
at push time, which becomes the step's `index`). -/
def spansGo (allLines : List String) (keywords : List String) (filePath cwd : String) :
    List String → Nat → Nat → List WalkthroughStep
  | [], _, _ => []
  | line :: rest, i, count =>
    match scanKeywords line keywords with
    | none => spansGo allLines keywords filePath cwd rest (i + 1) count
    | some pair =>
      let startLine := i - 2                     -- JS Math.max(0, i - 2): Nat subtraction clamps
      let endLine := min (allLines.length - 1) (i + 5)
      { index := count,
        file := pathRelative cwd cwd filePath,   -- JS path.relative(process.cwd(), filePath)
        lineRange := (startLine + 1, endLine + 1),
        code := sliceJoin allLines startLine endLine,
        explanation := pair.1,
        whyRelevant := pair.2,
        linksTo := findLinkedFiles line filePath } ::
      spansGo allLines keywords filePath cwd rest (i + 1) (count + 1)

/-- Embeds `CodeTracer.extractRelevantSpans`. -/
def extractRelevantSpans (content : String) (keywords : List String) (filePath cwd : String) :
    List WalkthroughStep :=
  let lines := splitLines content
  spansGo lines keywords filePath cwd lines 0 0

/-- Embeds `CodeTracer.findImports`: per line, the first ES6-import match
(if any) then the first require match (if any). -/
def findImports (lines : List String) : List String :=
  lines.flatMap (fun line =>
    (match scanFirst matchImportTracer line.data with | some i => [i] | none => []) ++
    (match scanFirst matchRequire line.data with | some r => [r] | none => []))

/-- Embeds `CodeTracer.importMatchesKeywords`. -/
def importMatchesKeywords (importPath : String) (keywords : List String) : Bool :=
  keywords.any (fun kw => containsSub (jsToLower importPath) (jsToLower kw))

/-- Embeds `CodeTracer.fileMatchesKeywords` (JS `file.content || ''`). -/
def fileMatchesKeywords (file : ProjectFile) (keywords : List String) : Bool :=
  keywords.any (fun kw =>
    containsSub (jsToLower file.path) (jsToLower kw) ||
    containsSub (jsToLower (file.content.getD "")) (jsToLower kw))

def importExtensions : List String :=
  ["", ".ts", ".tsx", ".js", ".jsx", "/index.ts", "/index.tsx", "/index.js", "/index.jsx"]

/-- Embeds `CodeTracer.resolveImportPath`: only relative imports resolve,
against the candidate suffix list, and only to paths of indexed files. -/
def resolveImportPath (cwd : String) (importPath fromFile : String)
    (project : IndexedProject) : Option String :=
  if strStartsWith importPath "./" || strStartsWith importPath "../" then
    let dir := pathDirname fromFile
    let resolved := pathResolve cwd dir importPath
    (importExtensions.find? (fun ext =>
      project.files.any (fun f => pathJoin project.root f.path = resolved ++ ext))).map
      (fun ext => resolved ++ ext)
  else none

/-- The filesystem visible to `fs.readFile`: an association list from
absolute path to content; a missing entry models a read failure. -/
def fsRead (fsys : List (String × String)) (p : String) : Option String :=
  (fsys.find? (fun e => e.1 = p)).map (fun e => e.2)

/-- The ambient data every tracer helper closes over: the extracted
keywords, the indexed project, the filesystem and the working directory. -/
structure TraceCtx where
  keywords : List String
  project : IndexedProject
  fsys : List (String × String)
  cwd : String

/-- The import-following loop at the bottom of `traceFromFile`, with the
recursive call abstracted as `recurse`; steps and the visited set are
threaded exactly as the JS mutation order does. -/
def followImports (ctx : TraceCtx)
    (recurse : String → List String → Option (List WalkthroughStep × List String))
    (fromFile : String) :
    List String → List WalkthroughStep → List String →
    Option (List WalkthroughStep × List String)
  | [], steps, visited => some (steps, visited)
  | imp :: rest, steps, visited =>
    if importMatchesKeywords imp ctx.keywords then
      match resolveImportPath ctx.cwd imp fromFile ctx.project with
      | some resolvedPath =>
        match recurse resolvedPath visited with
        | none => none
        | some (st, vis) => followImports ctx recurse fromFile rest (steps ++ st) vis
      | none => followImports ctx recurse fromFile rest steps visited
    else followImports ctx recurse fromFile rest steps visited

/-- One unfolding of `CodeTracer.traceFromFile`: the visited check, the
visited insertion, the guarded read (a failed read is the caught
exception path and contributes nothing), the span extraction and the
import-following loop. -/
def traceStepF (ctx : TraceCtx)
    (recurse : String → List String → Option (List WalkthroughStep × List String))
    (filePath : String) (visited : List String) :
    Option (List WalkthroughStep × List String) :=
  if visited.contains filePath then some ([], visited)
  else
    let visited' := filePath :: visited
    match fsRead ctx.fsys filePath with
    | none => some ([], visited')
    | some content =>
      let lines := splitLines content
      let imports := findImports lines
      let relevantSpans := extractRelevantSpans content ctx.keywords filePath ctx.cwd
      followImports ctx recurse filePath imports relevantSpans visited'

/-- Embeds `CodeTracer.traceFromFile`, fuelled: `none` means the fuel ran
out (which `traceFromFile_isSome` below shows never happens for the fuel
`traceExecutionPath` supplies). -/
def traceFromFile (ctx : TraceCtx) : Nat → String → List String →
    Option (List WalkthroughStep × List String)
  | 0, _, _ => none
  | fuel + 1, filePath, visited => traceStepF ctx (traceFromFile ctx fuel) filePath visited

/-- Fuel supplied to every entry-point walk: the recursion enters a new
file on every nested call (the visited set grows by one), every file
after the first is an indexed project file, so the chain length is at
most `files.length + 1`; one more unit keeps the innermost guard fed. -/
def traceFuel (project : IndexedProject) : Nat := project.files.length + 2

/-- The entry-point loop of `traceExecutionPath`: each entry point gets a
fresh visited set; produced steps accumulate across entry points. -/
def entryPhaseGo (ctx : TraceCtx) : List String → List WalkthroughStep →
    Option (List WalkthroughStep)
  | [], acc => some acc
  | ep :: rest, acc =>
    match traceFromFile ctx (traceFuel ctx.project) (pathJoin ctx.project.root ep) [] with
    | none => none
    | some (st, _) => entryPhaseGo ctx rest (acc ++ st)

def entryPhase (ctx : TraceCtx) : Option (List WalkthroughStep) :=
  entryPhaseGo ctx ctx.project.entryPoints []

/-- The stable comparator sort of JavaScript `Array.prototype.sort`
(stable per the ECMAScript specification), as a stable insertion sort:
a later element is placed before an earlier one exactly when the
comparator returns a negative value on the pair. -/
def insertCmp (cmp : ProjectFile → ProjectFile → Int) (x : ProjectFile) :
    List ProjectFile → List ProjectFile
  | [] => [x]
  | y :: ys => if cmp x y < 0 then x :: y :: ys else y :: insertCmp cmp x ys

def sortCmp (cmp : ProjectFile → ProjectFile → Int) (l : List ProjectFile) : List ProjectFile :=
  l.foldl (fun acc x => insertCmp cmp x acc) []

/-- The comparator `(a, b) => (b.isEntry ? 1 : 0) - (a.isEntry ? 1 : 0)`. -/
def entrySortCmp (a b : ProjectFile) : Int :=
  (if b.isEntry then (1 : Int) else 0) - (if a.isEntry then (1 : Int) else 0)

/-- The fallback branch of `traceExecutionPath`: keyword-matched files,
entry files sorted first, top five, per-file scan of the cached content
(JS `if (file.content)`: both `undefined` and the empty string skip). -/
def fallbackSteps (ctx : TraceCtx) : List WalkthroughStep :=
  let relevantFiles :=
    sortCmp entrySortCmp (ctx.project.files.filter (fun f => fileMatchesKeywords f ctx.keywords))
  (relevantFiles.take 5).flatMap (fun file =>
    match file.content with
    | some content =>
      if content = "" then []
      else extractRelevantSpans content ctx.keywords file.path ctx.cwd
    | none => [])

/-- Embeds `CodeTracer.traceExecutionPath`. -/
def traceExecutionPath (question : String) (project : IndexedProject)
    (fsys : List (String × String)) (cwd : String) : Option (List WalkthroughStep) :=
  let keywords := extractKeywords question
  let ctx : TraceCtx := ⟨keywords, project, fsys, cwd⟩
  match entryPhase ctx with
  | none => none
  | some steps => if steps.length = 0 then some (fallbackSteps ctx) else some steps

/-! ## Spec-side definitions used for refinement comparisons -/

/-- The fallback strategy as the spec words it (§4.5 step 3): files whose
path or content matches a keyword, entry-point files first (a stable
partition), top five, the same per-line scan on each without import
following.  Compared against the implementation's `fallbackSteps`. -/
def fallbackStepsSpec (ctx : TraceCtx) : List WalkthroughStep :=
  let matched := ctx.project.files.filter (fun f => fileMatchesKeywords f ctx.keywords)
  let ordered := matched.filter (fun f => f.isEntry) ++ matched.filter (fun f => !f.isEntry)
  (ordered.take 5).flatMap (fun file =>
    match file.content with
    | some content =>
      if content = "" then []
      else extractRelevantSpans content ctx.keywords file.path ctx.cwd
    | none => [])

/-! ## Helper lemmas -/

theorem contains_iff_mem (v : List String) (x : String) :
    v.contains x = true ↔ x ∈ v := by
  induction v with
  | nil => simp
  | cons a t ih =>
    simp only [List.contains_cons, Bool.or_eq_true, beq_iff_eq, List.mem_cons, ih]

/-- The first-match-wins keyword loop is `List.find?` followed by the
template table. -/
theorem scanKeywords_eq_find (line : String) (kws : List String) :
    scanKeywords line kws =
      (kws.find? (fun kw => containsSub (jsToLower line) (jsToLower kw))).map
        (fun kw => mkExplanation line kw) := by
  induction kws with
  | nil => rfl
  | cons kw rest ih =>
    simp only [scanKeywords, List.find?]
    by_cases h : containsSub (jsToLower line) (jsToLower kw) = true
    · simp [h]
    · simp only [Bool.not_eq_true] at h
      simp [h, ih]

/-- Indices of the steps produced by the per-line loop: consecutive
starting from the running count. -/
theorem spansGo_indices (allLines kws : List String) (fp cwd : String) :
    ∀ (rest : List String) (i count : Nat),
      (spansGo allLines kws fp cwd rest i count).map (fun st => st.index) =
        List.range' count (spansGo allLines kws fp cwd rest i count).length := by
  intro rest
  induction rest with
  | nil => intro i count; rfl
  | cons line rest ih =>
    intro i count
    simp only [spansGo]
    cases h : scanKeywords line kws with
    | none => exact ih (i + 1) count
    | some pair =>
      simp only [List.map_cons, List.length_cons, List.range'_succ]
      rw [ih (i + 1) (count + 1)]

/-- Every step of the per-line loop records the scanned file, rendered
relative to the working directory. -/
theorem spansGo_file (allLines kws : List String) (fp cwd : String) :
    ∀ (rest : List String) (i count : Nat) (st : WalkthroughStep),
      st ∈ spansGo allLines kws fp cwd rest i count →
      st.file = pathRelative cwd cwd fp := by
  intro rest
  induction rest with
  | nil => intro i count st h; cases h
  | cons line rest ih =>
    intro i count st h
    simp only [spansGo] at h
    cases hs : scanKeywords line kws with
    | none => rw [hs] at h; exact ih (i + 1) count st h
    | some pair =>
      rw [hs] at h
      cases h with
      | head => rfl
      | tail _ h => exact ih (i + 1) (count + 1) st h

/-- The per-line loop yields exactly one step per relevant line. -/
theorem spansGo_length (allLines kws : List String) (fp cwd : String) :
    ∀ (rest : List String) (i count : Nat),
      (spansGo allLines kws fp cwd rest i count).length =
        (rest.filter (fun l => (scanKeywords l kws).isSome)).length := by
  intro rest
  induction rest with
  | nil => intro i count; rfl
  | cons line rest ih =>
    intro i count
    simp only [spansGo, List.filter]
    cases h : scanKeywords line kws with
    | none => simpa [h] using ih (i + 1) count
    | some pair => simpa [h] using ih (i + 1) (count + 1)

/-- Every step of the per-line loop comes from a scanned line, with the
explanation pair produced by the keyword loop on that line. -/
theorem spansGo_provenance (allLines kws : List String) (fp cwd : String) :
    ∀ (rest : List String) (i count : Nat) (st : WalkthroughStep),
      st ∈ spansGo allLines kws fp cwd rest i count →
      ∃ line ∈ rest, ∃ pair, scanKeywords line kws = some pair ∧
        st.explanation = pair.1 ∧ st.whyRelevant = pair.2 := by
  intro rest
  induction rest with
  | nil => intro i count st h; cases h
  | cons line rest ih =>
    intro i count st h
    simp only [spansGo] at h
    cases hs : scanKeywords line kws with
    | none =>
      rw [hs] at h
      obtain ⟨l, hl, hp⟩ := ih (i + 1) count st h
      exact ⟨l, List.mem_cons_of_mem _ hl, hp⟩
    | some pair =>
      rw [hs] at h
      cases h with
      | head => exact ⟨line, List.mem_cons_self _ _, pair, hs, rfl, rfl⟩
      | tail _ h =>
        obtain ⟨l, hl, hp⟩ := ih (i + 1) (count + 1) st h
        exact ⟨l, List.mem_cons_of_mem _ hl, hp⟩

/-! ## Claim C2 — step indices -/

/-- Concrete fallback project for C2: no entry points, two keyword-matched
files, each producing one step. -/
def projC2 : IndexedProject :=
  { root := "/p", name := "p",
    files := [{ path := "one.ts", size := 1, content := some "alpha beta" },
              { path := "two.ts", size := 1, content := some "alphagamma" }],
    entryPoints := [] }

/-- C2 counterexample: in a single run of `trace()` over `projC2`, the two
returned steps both carry `index = 0` (the counter restarts for every
per-file scan), so the indices of one run are not pairwise unique. -/
theorem C2_counterexample :
    (traceExecutionPath "alpha" projC2 [] "/p").map
        (fun l => l.map (fun st => (st.index, st.file))) =
      some [(0, "one.ts"), (0, "two.ts")] := by
  decide

/-- C2 (amended): within one per-file scan (one `extractRelevantSpans`
call, i.e. one tracer sub-phase) the indices are exactly `0, 1, 2, …` in
order — monotonically assigned and pairwise unique there; they restart at
`0` for each scanned file, so they repeat across a run. -/
theorem C2_indices_per_scan (content : String) (kws : List String) (fp cwd : String) :
    (extractRelevantSpans content kws fp cwd).map (fun st => st.index) =
      List.range (extractRelevantSpans content kws fp cwd).length := by
  unfold extractRelevantSpans
  rw [List.range_eq_range']
  exact spansGo_indices _ kws fp cwd _ 0 0

/-! ## Claim C4 — import extraction -/

/-- Content in which a require call occurs before an ES6 import. -/
def contentC4 : String := "const x = require('./a')\nimport y from './b'"

/-- C4 counterexample: the require-matched target `./a` occurs at
character 19, before the import-matched target `./b` at character 40,
yet `extractImports` returns `["./b", "./a"]` — all import-pattern
matches precede all require-pattern matches, so the combined result is
not in source order. -/
theorem C4_counterexample :
    extractImports contentC4 "javascript" = ["./b", "./a"] ∧
      firstPos contentC4 "./a" = some 19 ∧ firstPos contentC4 "./b" = some 40 := by
  decide

/-- C4 (amended): for JavaScript/TypeScript, `extractImports` returns
every match of the module-import pattern (in source order) followed by
every match of the require pattern (in source order) — the two groups are
not interleaved by position; for languages other than the
JavaScript/TypeScript and Python families it returns the empty sequence
(and, being a total function, never throws). -/
theorem C4_imports_grouped (content lang : String) :
    ((lang = "javascript" ∨ lang = "typescript") →
      extractImports content lang =
        scanAll matchImportIndexer content ++ scanAll matchRequire content) ∧
    (lang ≠ "javascript" → lang ≠ "typescript" → lang ≠ "python" →
      extractImports content lang = []) := by
  constructor
  · rintro (h | h) <;> simp [extractImports, h]
  · intro h1 h2 h3
    simp [extractImports, h1, h2, h3]

/-- C4 witness: a language outside both families yields no imports. -/
theorem C4_witness : extractImports "import x from 'y'" "rust" = [] :=
  (C4_imports_grouped "import x from 'y'" "rust").2 (by decide) (by decide) (by decide)

/-! ## Claim C5 — keyword extraction -/

/-- C5 counterexample: the question `"Where is config.ts?"` yields the
keyword `"configts"` — the interior dot of the dotted name is removed
(the replace is global, not restricted to terminal punctuation), so the
token `"config.ts"` is not produced. -/
theorem C5_counterexample :
    extractKeywords "Where is config.ts?" = ["configts"] ∧
      "config.ts" ∉ extractKeywords "Where is config.ts?" := by
  decide

theorem stripPunct_chars (s : String) (c : Char) (h : c ∈ (stripPunct s).data) :
    ¬(c = '?' ∨ c = '.' ∨ c = ',' ∨ c = '!') := by
  have : c ∈ s.data.filter (fun c => !(c = '?' || c = '.' || c = ',' || c = '!')) := h
  have hp := (List.mem_filter.mp this).2
  simp only [Bool.not_eq_true', Bool.or_eq_false_iff, decide_eq_false_iff_not] at hp
  tauto

theorem splitWsAux_chars (P : Char → Prop) :
    ∀ (cs curr : List Char) (inRun : Bool),
      (∀ c ∈ cs, isWsChar c = false → P c) →
      (∀ c ∈ curr, P c ∧ isWsChar c = false) →
      ∀ w ∈ splitWsAux cs curr inRun, ∀ c ∈ w.data, P c ∧ isWsChar c = false := by
  intro cs
  induction cs with
  | nil =>
    intro curr inRun _ hcurr w hw c hc
    simp only [splitWsAux, List.mem_singleton] at hw
    subst hw
    exact hcurr c (by simpa using hc)
  | cons a t ih =>
    intro curr inRun hcs hcurr w hw c hc
    simp only [splitWsAux] at hw
    by_cases ha : isWsChar a = true
    · rw [if_pos ha] at hw
      cases inRun with
      | true =>
        rw [if_pos rfl] at hw
        exact ih curr true (fun x hx => hcs x (List.mem_cons_of_mem _ hx)) hcurr w hw c hc
      | false =>
        rw [if_neg (by simp)] at hw
        simp only [List.mem_cons] at hw
        cases hw with
        | inl hw =>
          subst hw
          exact hcurr c (by simpa using hc)
        | inr hw =>
          exact ih [] true (fun x hx => hcs x (List.mem_cons_of_mem _ hx))
            (by intro x hx; cases hx) w hw c hc
    · rw [if_neg ha] at hw
      refine ih (a :: curr) false (fun x hx => hcs x (List.mem_cons_of_mem _ hx)) ?_ w hw c hc
      intro x hx
      cases hx with
      | head =>
        exact ⟨hcs a (List.mem_cons_self _ _) (by simpa using ha), by simpa using ha⟩
      | tail _ hx => exact hcurr x hx

/-- C5 (amended): keyword extraction lowercases, removes every occurrence
of `? . , !` anywhere in the text (interior occurrences included, which is
why a dotted name loses its dot), splits on whitespace runs, and keeps
exactly the tokens of length greater than 2 outside the stop-word list;
consequently every returned keyword is longer than 2, is no stop word, and
contains neither those punctuation characters nor whitespace. -/
theorem C5_keyword_tokens (q w : String) (h : w ∈ extractKeywords q) :
    2 < w.length ∧ w ∉ commonWords ∧
      ∀ c ∈ w.data, ¬(c = '?' ∨ c = '.' ∨ c = ',' ∨ c = '!') ∧ isWsChar c = false := by
  unfold extractKeywords at h
  have hmem := (List.mem_filter.mp h).1
  have hpred := (List.mem_filter.mp h).2
  simp only [Bool.and_eq_true, decide_eq_true_eq, Bool.not_eq_true'] at hpred
  refine ⟨hpred.1, ?_, ?_⟩
  · intro hw
    have := (contains_iff_mem commonWords w).mpr hw
    rw [hpred.2] at this
    cases this
  · intro c hc
    have := splitWsAux_chars (fun c => ¬(c = '?' ∨ c = '.' ∨ c = ',' ∨ c = '!'))
      (stripPunct (jsToLower q)).data [] false
      (fun x hx _ => stripPunct_chars (jsToLower q) x hx)
      (by intro x hx; cases hx) w hmem c hc
    exact this

/-- C5 witness: instantiating the amended theorem on a concrete question
and keyword. -/
theorem C5_witness :
    2 < ("authmod" : String).length ∧ ("authmod" : String) ∉ commonWords ∧
      (¬('a' = '?' ∨ 'a' = '.' ∨ 'a' = ',' ∨ 'a' = '!') ∧ isWsChar 'a' = false) := by
  have h := C5_keyword_tokens "authmod value" "authmod" (by decide)
  exact ⟨h.1, h.2.1, h.2.2 'a' (by decide)⟩

/-! ## Claim C8 — content-read ceiling -/

/-- A configuration whose `maxFileSize` equals the hardcoded content-read
ceiling of `discoverFiles`. -/
def cfgC8 : Config :=
  { apiKey := "", model := "gemini-2.5-pro", debug := false,
    maxFileSize := 100000, maxContextSize := 10485760 }

def entriesC8 : List FsEntry :=
  [{ path := "a.ts", size := 99999, read := some "x" },
   { path := "b.ts", size := 100000, read := some "y" }]

/-- C8 counterexample: with `maxFileSize` configured to 100000, the
indexer still loads content for a 99999-byte file, so no integer ceiling
that is smaller than the configured `maxFileSize` can bound the sizes of
content-bearing files — the content-read ceiling is not below the
configured filter. -/
theorem C8_counterexample :
    ¬ ∃ ceiling : Nat, ceiling < cfgC8.maxFileSize ∧
        ∀ f ∈ discoverFiles cfgC8 entriesC8,
          f.content.isSome = true → f.language.isSome = true ∧ f.size < ceiling := by
  rintro ⟨ceiling, hlt, hall⟩
  have hmax : cfgC8.maxFileSize = 100000 := rfl
  have hf := hall
    { path := "a.ts", size := 99999, language := some "typescript",
      content := some "x", preview := some "x", isEntry := false }
    (by decide) (by decide)
  have : (99999 : Nat) < ceiling := hf.2
  omega

/-- C8 (amended): a file's content is cached only when its extension maps
to a language and its size is under the fixed 100000-byte ceiling
hardcoded in `discoverFiles`; that constant is below the default
`maxFileSize` of 1048576 bytes but is not itself configurable and need
not be below a configured `maxFileSize`. -/
theorem C8_content_ceiling :
    (∀ (cfg : Config) (entries : List FsEntry) (f : ProjectFile),
      f ∈ discoverFiles cfg entries → f.content.isSome = true →
      f.language.isSome = true ∧ f.size < 100000) ∧
    (∀ home : String, 100000 < (loadConfig [] home).maxFileSize) := by
  constructor
  · intro cfg entries f hf hc
    obtain ⟨e, _, hfe⟩ := List.mem_filterMap.mp hf
    by_cases hsize : e.size > cfg.maxFileSize
    · rw [if_pos hsize] at hfe; cases hfe
    · rw [if_neg hsize] at hfe
      injection hfe with hfe
      subst hfe
      by_cases hcond :
          ((getLanguageFromExt (pathExtname e.path)).isSome && decide (e.size < 100000)) = true
      · simp only [Bool.and_eq_true, decide_eq_true_eq] at hcond
        exact ⟨hcond.1, hcond.2⟩
      · rw [if_neg hcond] at hc
        cases hc
  · intro home
    have : (loadConfig [] home).maxFileSize = 1048576 := rfl
    omega

/-- C8 witness: a concrete project file with cached content satisfies the
amended bound. -/
theorem C8_witness :
    ({ path := "a.ts", size := 99999, language := some "typescript",
       content := some "x", preview := some "x", isEntry := false } : ProjectFile).language.isSome
        = true ∧
      ({ path := "a.ts", size := 99999, language := some "typescript",
         content := some "x", preview := some "x", isEntry := false } : ProjectFile).size < 100000 :=
  C8_content_ceiling.1 cfgC8 entriesC8 _ (by decide) (by decide)

/-! ## Claim C10 — one step per line, first keyword wins -/

/-- C10 (confirmed): the per-line scan yields exactly one step for each
relevant line (so at most one even when several keywords match it), and
every step's explanation pair is generated from the first keyword, in
keyword order, that case-insensitively matches its line. -/
theorem C10_one_step_per_line (content : String) (kws : List String) (fp cwd : String) :
    (extractRelevantSpans content kws fp cwd).length =
      ((splitLines content).filter
        (fun l => (kws.find? (fun kw => containsSub (jsToLower l) (jsToLower kw))).isSome)).length ∧
    ∀ st ∈ extractRelevantSpans content kws fp cwd,
      ∃ line ∈ splitLines content, ∃ kw,
        kws.find? (fun k => containsSub (jsToLower line) (jsToLower k)) = some kw ∧
        st.explanation = (mkExplanation line kw).1 ∧
        st.whyRelevant = (mkExplanation line kw).2 := by
  constructor
  · unfold extractRelevantSpans
    rw [spansGo_length]
    congr 1
    apply List.filter_congr
    intro l _
    rw [scanKeywords_eq_find]
    cases kws.find? (fun kw => containsSub (jsToLower l) (jsToLower kw)) <;> rfl
  · intro st hst
    unfold extractRelevantSpans at hst
    obtain ⟨line, hline, pair, hpair, he, hw⟩ :=
      spansGo_provenance (splitLines content) kws fp cwd (splitLines content) 0 0 st hst
    rw [scanKeywords_eq_find] at hpair
    obtain ⟨kw, hkw, hpk⟩ := Option.map_eq_some'.mp hpair
    exact ⟨line, hline, kw, hkw, by rw [he, ← hpk], by rw [hw, ← hpk]⟩

/-- C10 witness: a line matched by both keywords produces a single step. -/
theorem C10_witness :
    (extractRelevantSpans "zeta authcheck" ["zeta", "authcheck"] "/p/a.ts" "/p").length = 1 := by
  rw [(C10_one_step_per_line "zeta authcheck" ["zeta", "authcheck"] "/p/a.ts" "/p").1]
  decide

/-! ## Claim C6 — fallback strategy -/

theorem insertCmp_nons (x : ProjectFile) :
    ∀ (nons : List ProjectFile), (∀ y ∈ nons, y.isEntry = false) →
      insertCmp entrySortCmp x nons =
        if x.isEntry then x :: nons else nons ++ [x] := by
  intro nons
  induction nons with
  | nil =>
    intro _
    cases hx : x.isEntry <;> simp [insertCmp]
  | cons y ys ih =>
    intro hall
    have hy : y.isEntry = false := hall y (List.mem_cons_self _ _)
    cases hx : x.isEntry with
    | true =>
      have hcmp : entrySortCmp x y < 0 := by simp [entrySortCmp, hx, hy]
      simp [insertCmp, hcmp]
    | false =>
      have hcmp : ¬ entrySortCmp x y < 0 := by simp [entrySortCmp, hx, hy]
      simp only [insertCmp, if_neg hcmp]
      rw [ih (fun z hz => hall z (List.mem_cons_of_mem _ hz)), if_neg (by simp [hx])]
      simp

theorem insertCmp_split (x : ProjectFile) :
    ∀ (ents nons : List ProjectFile),
      (∀ y ∈ ents, y.isEntry = true) → (∀ y ∈ nons, y.isEntry = false) →
      insertCmp entrySortCmp x (ents ++ nons) =
        if x.isEntry then ents ++ x :: nons else ents ++ (nons ++ [x]) := by
  intro ents
  induction ents with
  | nil =>
    intro nons _ hnons
    simpa using insertCmp_nons x nons hnons
  | cons e es ih =>
    intro nons hents hnons
    have he : e.isEntry = true := hents e (List.mem_cons_self _ _)
    have hcmp : ¬ entrySortCmp x e < 0 := by
      cases hx : x.isEntry <;> simp [entrySortCmp, hx, he]
    simp only [List.cons_append, insertCmp, if_neg hcmp, List.append_eq]
    rw [ih nons (fun z hz => hents z (List.mem_cons_of_mem _ hz)) hnons]
    cases hx : x.isEntry <;> simp

theorem sortCmp_partition_aux :
    ∀ (l ents nons : List ProjectFile),
      (∀ y ∈ ents, y.isEntry = true) → (∀ y ∈ nons, y.isEntry = false) →
      l.foldl (fun acc x => insertCmp entrySortCmp x acc) (ents ++ nons) =
        (ents ++ l.filter (fun f => f.isEntry)) ++ (nons ++ l.filter (fun f => !f.isEntry)) := by
  intro l
  induction l with
  | nil => intro ents nons _ _; simp
  | cons x xs ih =>
    intro ents nons hents hnons
    simp only [List.foldl_cons]
    rw [insertCmp_split x ents nons hents hnons]
    cases hx : x.isEntry with
    | true =>
      rw [if_pos rfl]
      have : ents ++ x :: nons = (ents ++ [x]) ++ nons := by simp
      rw [this, ih (ents ++ [x]) nons
        (by intro z hz
            rcases List.mem_append.mp hz with h | h
            · exact hents z h
            · simp only [List.mem_singleton] at h; subst h; exact hx)
        hnons]
      simp [List.filter_cons, hx]
    | false =>
      rw [if_neg (by simp)]
      have : ents ++ (nons ++ [x]) = ents ++ (nons ++ [x]) := rfl
      rw [ih ents (nons ++ [x]) hents
        (by intro z hz
            rcases List.mem_append.mp hz with h | h
            · exact hnons z h
            · simp only [List.mem_singleton] at h; subst h; exact hx)]
      simp [List.filter_cons, hx]

/-- The JavaScript stable sort with the entries-first comparator is the
stable partition: entry files in original order, then the rest. -/
theorem sortCmp_partition (l : List ProjectFile) :
    sortCmp entrySortCmp l =
      l.filter (fun f => f.isEntry) ++ l.filter (fun f => !f.isEntry) := by
  have := sortCmp_partition_aux l [] []
    (by intro z hz; cases hz) (by intro z hz; cases hz)
  simpa [sortCmp] using this

/-- The implemented fallback equals the spec-worded fallback. -/
theorem fallbackSteps_eq_spec (ctx : TraceCtx) :
    fallbackSteps ctx = fallbackStepsSpec ctx := by
  unfold fallbackSteps fallbackStepsSpec
  rw [sortCmp_partition]

/-- When the entry-point list is empty the entry phase yields no steps. -/
theorem entryPhase_nil (ctx : TraceCtx) (h : ctx.project.entryPoints = []) :
    entryPhase ctx = some [] := by
  unfold entryPhase
  rw [h]
  rfl

/-- With no entry points the trace is the fallback, never a failure. -/
theorem trace_entry_empty (q : String) (p : IndexedProject)
    (fsys : List (String × String)) (cwd : String) (hep : p.entryPoints = []) :
    traceExecutionPath q p fsys cwd =
      some (fallbackSteps ⟨extractKeywords q, p, fsys, cwd⟩) := by
  simp only [traceExecutionPath]
  rw [entryPhase_nil ⟨extractKeywords q, p, fsys, cwd⟩ hep]
  rfl

/-- C6 (confirmed): if `project.entryPoints` is empty, `trace()` returns
(never throws) the fallback result — keyword-matched files, entry files
first (stable), top five, per-line scan without import following, as the
spec words it; and the fallback is used only when the entry-point walk
produced zero steps: a nonempty entry-phase result is returned as is. -/
theorem C6_fallback_contract (q : String) (p : IndexedProject)
    (fsys : List (String × String)) (cwd : String) :
    (p.entryPoints = [] →
      traceExecutionPath q p fsys cwd =
        some (fallbackStepsSpec ⟨extractKeywords q, p, fsys, cwd⟩)) ∧
    (∀ s, entryPhase ⟨extractKeywords q, p, fsys, cwd⟩ = some s → s ≠ [] →
      traceExecutionPath q p fsys cwd = some s) := by
  constructor
  · intro hep
    rw [trace_entry_empty q p fsys cwd hep, fallbackSteps_eq_spec]
  · intro s hs hne
    simp only [traceExecutionPath]
    rw [hs]
    have : s.length ≠ 0 := by
      intro h
      exact hne (List.length_eq_zero.mp h)
    simp [this]

/-- Concrete entry-point-free project for the C6 witness. -/
def projC6 : IndexedProject :=
  { root := "/p", name := "p",
    files := [{ path := "alpha.ts", size := 1, content := some "alpha line" },
              { path := "main.ts", size := 1, content := some "alpha main", isEntry := true }],
    entryPoints := [] }

/-- C6 witness: the theorem applied to a concrete entry-point-free
project. -/
theorem C6_witness :
    traceExecutionPath "alpha" projC6 [] "/p" =
      some (fallbackStepsSpec ⟨extractKeywords "alpha", projC6, [], "/p"⟩) :=
  (C6_fallback_contract "alpha" projC6 [] "/p").1 rfl

/-! ## Claim C9 — the fallback reads no file from disk -/

theorem flatMap_content_none (kws : List String) (cwd : String) :
    ∀ (l : List ProjectFile), (∀ f ∈ l, f.content = none) →
      (l.flatMap (fun file =>
        match file.content with
        | some content =>
          if content = "" then []
          else extractRelevantSpans content kws file.path cwd
        | none => [])) = [] := by
  intro l
  induction l with
  | nil => intro _; rfl
  | cons f fs ih =>
    intro hall
    have hf : f.content = none := hall f (List.mem_cons_self _ _)
    simp only [List.flatMap_cons, hf]
    exact ih (fun g hg => hall g (List.mem_cons_of_mem _ hg))

/-- C9 (confirmed): with no entry points the whole trace never consults
the filesystem — the result is identical for any two filesystems — and a
project none of whose files carry cached content yields no steps at all,
even when file paths match the keywords; the lazy disk read exists only
in the entry-point-seeded walk. -/
theorem C9_fallback_no_disk (q : String) (p : IndexedProject)
    (fs1 fs2 : List (String × String)) (cwd : String) (hep : p.entryPoints = []) :
    traceExecutionPath q p fs1 cwd = traceExecutionPath q p fs2 cwd ∧
    ((∀ f ∈ p.files, f.content = none) → traceExecutionPath q p fs1 cwd = some []) := by
  constructor
  · rw [trace_entry_empty q p fs1 cwd hep, trace_entry_empty q p fs2 cwd hep]
    rfl
  · intro hall
    rw [trace_entry_empty q p fs1 cwd hep]
    unfold fallbackSteps
    rw [flatMap_content_none]
    intro f hf
    have hmem : f ∈ sortCmp entrySortCmp
        (p.files.filter (fun g => fileMatchesKeywords g (extractKeywords q))) :=
      List.mem_of_mem_take hf
    rw [sortCmp_partition] at hmem
    rcases List.mem_append.mp hmem with h | h <;>
      exact hall f (List.mem_filter.mp (List.mem_filter.mp h).1).1

/-- Project whose only file matches the keyword by path but has no cached
content. -/
def projC9 : IndexedProject :=
  { root := "/p", name := "p",
    files := [{ path := "alphafile.ts", size := 1 }],
    entryPoints := [] }

/-- C9 witness: a path-matched file without cached content contributes no
steps, and the result is filesystem-independent. -/
theorem C9_witness :
    traceExecutionPath "alpha" projC9 [] "/p" =
        traceExecutionPath "alpha" projC9 [("/p/alphafile.ts", "alpha here")] "/p" ∧
      traceExecutionPath "alpha" projC9 [] "/p" = some [] := by
  have h := C9_fallback_no_disk "alpha" projC9 [] [("/p/alphafile.ts", "alpha here")] "/p" rfl
  exact ⟨h.1, h.2 (by decide)⟩

/-! ## Claim C7 — termination

The recursion of `traceFromFile` is fuelled; these lemmas show the fuel
`traceFuel` never runs out: every recursive call targets a path of an
indexed file (`resolveImportPath` guarantees it) that is not yet visited,
so the count of unvisited indexed paths strictly decreases. -/

/-- The absolute paths of the indexed files, as `resolveImportPath`
compares them. -/
def projPaths (ctx : TraceCtx) : List String :=
  ctx.project.files.map (fun f => pathJoin ctx.project.root f.path)

theorem resolveImportPath_mem (cwd imp fromFile : String) (proj : IndexedProject)
    (rp : String) (h : resolveImportPath cwd imp fromFile proj = some rp) :
    rp ∈ proj.files.map (fun f => pathJoin proj.root f.path) := by
  unfold resolveImportPath at h
  by_cases hrel : (strStartsWith imp "./" || strStartsWith imp "../") = true
  · rw [if_pos hrel] at h
    obtain ⟨ext, hfind, hmap⟩ := Option.map_eq_some'.mp h
    have hpred := List.find?_some hfind
    simp only [List.any_eq_true, decide_eq_true_eq] at hpred
    obtain ⟨f, hf, heq⟩ := hpred
    subst hmap
    exact List.mem_map.mpr ⟨f, hf, heq⟩
  · rw [if_neg hrel] at h
    cases h

/-- Count of indexed paths not yet visited. -/
def uc (ctx : TraceCtx) (visited : List String) : Nat :=
  ((projPaths ctx).filter (fun p => !visited.contains p)).length

theorem filter_notContains_le (v v' : List String) (hsub : ∀ x ∈ v, x ∈ v') :
    ∀ l : List String,
      (l.filter (fun p => !v'.contains p)).length ≤
        (l.filter (fun p => !v.contains p)).length := by
  intro l
  induction l with
  | nil => simp
  | cons a t ih =>
    simp only [List.filter_cons]
    by_cases h' : (!v'.contains a) = true
    · have h : (!v.contains a) = true := by
        by_contra hc
        simp only [Bool.not_eq_true', Bool.not_eq_false] at hc h'
        have := hsub a ((contains_iff_mem v a).mp hc)
        rw [(contains_iff_mem v' a).mpr this] at h'
        cases h'
      rw [if_pos h', if_pos h]
      simpa using ih
    · rw [if_neg h']
      by_cases h : (!v.contains a) = true
      · rw [if_pos h]
        exact Nat.le_succ_of_le ih
      · rw [if_neg h]
        exact ih

theorem uc_mono (ctx : TraceCtx) (v v' : List String) (hsub : ∀ x ∈ v, x ∈ v') :
    uc ctx v' ≤ uc ctx v :=
  filter_notContains_le v v' hsub (projPaths ctx)

theorem filter_insert_lt (v : List String) (fp : String) (hnc : v.contains fp = false) :
    ∀ l : List String, fp ∈ l →
      (l.filter (fun p => !(fp :: v).contains p)).length <
        (l.filter (fun p => !v.contains p)).length := by
  intro l
  induction l with
  | nil => intro h; cases h
  | cons a t ih =>
    intro hmem
    simp only [List.filter_cons]
    by_cases ha : a = fp
    · subst ha
      have hnew : (a :: v).contains a = true := by
        simp [List.contains_cons]
      have hold : (!v.contains a) = true := by rw [Bool.not_eq_true', hnc]
      have hcond : ¬((!(a :: v).contains a) = true) := by rw [hnew]; simp
      rw [if_neg hcond, if_pos hold]
      have hle := filter_notContains_le v (a :: v)
        (fun x hx => List.mem_cons_of_mem _ hx) t
      simpa using Nat.lt_succ_of_le hle
    · have hfp : fp ∈ t := by
        cases List.mem_cons.mp hmem with
        | inl h => exact absurd h.symm ha
        | inr h => exact h
      have hsame : ((fp :: v).contains a) = (v.contains a) := by
        simp only [List.contains_cons]
        have : (a == fp) = false := beq_false_of_ne ha
        rw [this]
        simp
      by_cases hk : (!v.contains a) = true
      · rw [if_pos hk, if_pos (by rw [Bool.not_eq_true', hsame, ← Bool.not_eq_true']; exact hk)]
        simpa using ih hfp
      · rw [if_neg hk, if_neg (by rw [Bool.not_eq_true', hsame, ← Bool.not_eq_true']; exact hk)]
        exact ih hfp

theorem uc_insert (ctx : TraceCtx) (fp : String) (v : List String)
    (hmem : fp ∈ projPaths ctx) (hnc : v.contains fp = false) :
    uc ctx (fp :: v) < uc ctx v :=
  filter_insert_lt v fp hnc (projPaths ctx) hmem

theorem uc_le (ctx : TraceCtx) (v : List String) :
    uc ctx v ≤ ctx.project.files.length := by
  have h1 := List.length_filter_le (fun p => !v.contains p) (projPaths ctx)
  have h2 : (projPaths ctx).length = ctx.project.files.length := by
    simp [projPaths]
  exact le_trans h1 (le_of_eq h2)

theorem followImports_mono (ctx : TraceCtx)
    (recurse : String → List String → Option (List WalkthroughStep × List String))
    (hrec : ∀ fp v r, recurse fp v = some r → ∀ x ∈ v, x ∈ r.2) (fromFile : String) :
    ∀ (imports : List String) (steps : List WalkthroughStep) (visited : List String) r,
      followImports ctx recurse fromFile imports steps visited = some r →
      ∀ x ∈ visited, x ∈ r.2 := by
  intro imports
  induction imports with
  | nil =>
    intro steps visited r h x hx
    injection h with h
    rw [← h]
    exact hx
  | cons imp rest ih =>
    intro steps visited r h x hx
    simp only [followImports] at h
    by_cases hm : importMatchesKeywords imp ctx.keywords = true
    · rw [if_pos hm] at h
      cases hres : resolveImportPath ctx.cwd imp fromFile ctx.project with
      | none =>
        simp only [hres] at h
        exact ih steps visited r h x hx
      | some rp =>
        simp only [hres] at h
        cases hrec' : recurse rp visited with
        | none =>
          simp only [hrec'] at h
          exact Option.noConfusion h
        | some pr =>
          obtain ⟨st, vis⟩ := pr
          simp only [hrec'] at h
          exact ih (steps ++ st) vis r h x (hrec rp visited (st, vis) hrec' x hx)
    · rw [if_neg hm] at h
      exact ih steps visited r h x hx

theorem traceFromFile_mono (ctx : TraceCtx) :
    ∀ (fuel : Nat) (fp : String) (v : List String) r,
      traceFromFile ctx fuel fp v = some r → ∀ x ∈ v, x ∈ r.2 := by
  intro fuel
  induction fuel with
  | zero => intro fp v r h; cases h
  | succ f ih =>
    intro fp v r h x hx
    simp only [traceFromFile, traceStepF] at h
    by_cases hv : v.contains fp = true
    · rw [if_pos hv] at h
      injection h with h
      rw [← h]
      exact hx
    · rw [if_neg hv] at h
      cases hread : fsRead ctx.fsys fp with
      | none =>
        simp only [hread] at h
        injection h with h
        rw [← h]
        exact List.mem_cons_of_mem _ hx
      | some content =>
        simp only [hread] at h
        exact followImports_mono ctx _ ih fp _ _ _ r h x (List.mem_cons_of_mem _ hx)

theorem followImports_isSome (ctx : TraceCtx)
    (recurse : String → List String → Option (List WalkthroughStep × List String)) (k : Nat)
    (hrec_mono : ∀ fp v r, recurse fp v = some r → ∀ x ∈ v, x ∈ r.2)
    (hrec_some : ∀ fp v, fp ∈ projPaths ctx → uc ctx v ≤ k → (recurse fp v).isSome = true)
    (fromFile : String) :
    ∀ (imports : List String) (steps : List WalkthroughStep) (visited : List String),
      uc ctx visited ≤ k →
      (followImports ctx recurse fromFile imports steps visited).isSome = true := by
  intro imports
  induction imports with
  | nil => intro steps visited _; rfl
  | cons imp rest ih =>
    intro steps visited hk
    simp only [followImports]
    by_cases hm : importMatchesKeywords imp ctx.keywords = true
    · rw [if_pos hm]
      cases hres : resolveImportPath ctx.cwd imp fromFile ctx.project with
      | none =>
        simp only [hres]
        exact ih steps visited hk
      | some rp =>
        have hmem : rp ∈ projPaths ctx := resolveImportPath_mem _ _ _ _ _ hres
        have hsome := hrec_some rp visited hmem hk
        cases hrec' : recurse rp visited with
        | none => rw [hrec'] at hsome; cases hsome
        | some pr =>
          obtain ⟨st, vis⟩ := pr
          have hsub := hrec_mono rp visited (st, vis) hrec'
          simp only [hres, hrec']
          exact ih (steps ++ st) vis (le_trans (uc_mono ctx visited vis hsub) hk)
    · rw [if_neg hm]
      exact ih steps visited hk

theorem traceFromFile_isSome (ctx : TraceCtx) :
    ∀ (fuel : Nat) (fp : String) (visited : List String),
      (fp ∈ visited ∨ (fp ∈ projPaths ctx ∧ uc ctx visited < fuel)) → 1 ≤ fuel →
      (traceFromFile ctx fuel fp visited).isSome = true := by
  intro fuel
  induction fuel with
  | zero => intro fp visited _ h1; omega
  | succ f ih =>
    intro fp visited hcase _
    simp only [traceFromFile, traceStepF]
    by_cases hv : visited.contains fp = true
    · rw [if_pos hv]; rfl
    · rw [if_neg hv]
      have hfp : fp ∈ projPaths ctx ∧ uc ctx visited < f + 1 := by
        cases hcase with
        | inl h =>
          rw [(contains_iff_mem visited fp).mpr h] at hv
          exact absurd rfl hv
        | inr h => exact h
      cases hread : fsRead ctx.fsys fp with
      | none => simp [hread]
      | some content =>
        have hlt : uc ctx (fp :: visited) < uc ctx visited :=
          uc_insert ctx fp visited hfp.1 (by simpa using hv)
        have hk : uc ctx (fp :: visited) < f := by omega
        simp only [hread]
        exact followImports_isSome ctx _ (uc ctx (fp :: visited))
          (fun fp' v' r' hr => traceFromFile_mono ctx f fp' v' r' hr)
          (fun fp' v' hm hu => ih fp' v' (Or.inr ⟨hm, lt_of_le_of_lt hu hk⟩) (by omega))
          fp _ _ (fp :: visited) (le_refl _)

/-- With the fuel `traceExecutionPath` supplies, the walk from any entry
file always completes. -/
theorem traceFromFile_top (ctx : TraceCtx) (fp : String) :
    (traceFromFile ctx (traceFuel ctx.project) fp []).isSome = true := by
  show (traceFromFile ctx (ctx.project.files.length + 2) fp []).isSome = true
  simp only [traceFromFile, traceStepF]
  rw [if_neg (by simp)]
  cases hread : fsRead ctx.fsys fp with
  | none => simp [hread]
  | some content =>
    have hle : uc ctx [fp] ≤ ctx.project.files.length := uc_le ctx [fp]
    simp only [hread]
    exact followImports_isSome ctx _ (uc ctx [fp])
      (fun fp' v' r' hr => traceFromFile_mono ctx (ctx.project.files.length + 1) fp' v' r' hr)
      (fun fp' v' hm hu =>
        traceFromFile_isSome ctx (ctx.project.files.length + 1) fp' v'
          (Or.inr ⟨hm, by omega⟩) (by omega))
      fp _ _ [fp] (le_refl _)

theorem entryPhaseGo_isSome (ctx : TraceCtx) :
    ∀ (eps : List String) (acc : List WalkthroughStep),
      (entryPhaseGo ctx eps acc).isSome = true := by
  intro eps
  induction eps with
  | nil => intro acc; rfl
  | cons ep rest ih =>
    intro acc
    simp only [entryPhaseGo]
    have htop := traceFromFile_top ctx (pathJoin ctx.project.root ep)
    cases h : traceFromFile ctx (traceFuel ctx.project) (pathJoin ctx.project.root ep) [] with
    | none => rw [h] at htop; cases htop
    | some pr =>
      obtain ⟨st, vis⟩ := pr
      simp only [h]
      exact ih (acc ++ st)

theorem scanKeywords_nil_kws (line : String) : scanKeywords line [] = none := rfl

theorem spansGo_nil_kws (allLines : List String) (fp cwd : String) :
    ∀ (rest : List String) (i count : Nat),
      spansGo allLines [] fp cwd rest i count = [] := by
  intro rest
  induction rest with
  | nil => intro i count; rfl
  | cons line t ih => intro i count; simpa [spansGo, scanKeywords_nil_kws] using ih (i + 1) count

theorem followImports_nil_kws (ctx : TraceCtx) (h : ctx.keywords = [])
    (recurse : String → List String → Option (List WalkthroughStep × List String))
    (fromFile : String) :
    ∀ (imports : List String) (steps : List WalkthroughStep) (visited : List String),
      followImports ctx recurse fromFile imports steps visited = some (steps, visited) := by
  intro imports
  induction imports with
  | nil => intro steps visited; rfl
  | cons imp rest ih =>
    intro steps visited
    have hm : importMatchesKeywords imp ctx.keywords = false := by
      rw [h]; rfl
    simp [followImports, hm, ih steps visited]

theorem traceFromFile_nil_kws (ctx : TraceCtx) (h : ctx.keywords = []) :
    ∀ (f : Nat) (fp : String) (v : List String),
      ∃ v', traceFromFile ctx (f + 1) fp v = some ([], v') := by
  intro f fp v
  simp only [traceFromFile, traceStepF]
  by_cases hv : v.contains fp = true
  · exact ⟨v, by rw [if_pos hv]⟩
  · rw [if_neg hv]
    cases hread : fsRead ctx.fsys fp with
    | none => exact ⟨fp :: v, by simp [hread]⟩
    | some content =>
      refine ⟨fp :: v, ?_⟩
      simp only [hread]
      have hspans : extractRelevantSpans content ctx.keywords fp ctx.cwd = [] := by
        rw [h]
        unfold extractRelevantSpans
        exact spansGo_nil_kws _ fp ctx.cwd _ 0 0
      rw [hspans]
      exact followImports_nil_kws ctx h _ fp _ [] (fp :: v)

theorem entryPhaseGo_nil_kws (ctx : TraceCtx) (h : ctx.keywords = []) :
    ∀ (eps : List String) (acc : List WalkthroughStep),
      entryPhaseGo ctx eps acc = some acc := by
  intro eps
  induction eps with
  | nil => intro acc; rfl
  | cons ep rest ih =>
    intro acc
    obtain ⟨v', hv'⟩ :=
      traceFromFile_nil_kws ctx h (ctx.project.files.length + 1) (pathJoin ctx.project.root ep) []
    simp only [entryPhaseGo]
    have heq : traceFromFile ctx (traceFuel ctx.project) (pathJoin ctx.project.root ep) [] =
        some ([], v') := hv'
    simp only [heq]
    simpa using ih acc

/-- With no keywords nothing matches, so the fallback yields no steps. -/
theorem fallback_nil_kws (ctx : TraceCtx) (h : ctx.keywords = []) :
    fallbackSteps ctx = [] := by
  unfold fallbackSteps
  have hmatch : ctx.project.files.filter
      (fun f => fileMatchesKeywords f ctx.keywords) = [] :=
    List.filter_eq_nil_iff.mpr (fun f _ => by rw [h]; simp [fileMatchesKeywords])
  rw [hmatch]
  rfl

/-- C7 (confirmed): `trace()` terminates for every project, question,
filesystem and working directory — including cyclic import graphs, since
the visited set bounds the recursion — and a question yielding zero
keywords produces the empty step list through both strategies rather than
an error. -/
theorem C7_termination (q : String) (p : IndexedProject)
    (fsys : List (String × String)) (cwd : String) :
    (traceExecutionPath q p fsys cwd).isSome = true ∧
    (extractKeywords q = [] → traceExecutionPath q p fsys cwd = some []) := by
  constructor
  · simp only [traceExecutionPath]
    have h : (entryPhase ⟨extractKeywords q, p, fsys, cwd⟩).isSome = true :=
      entryPhaseGo_isSome ⟨extractKeywords q, p, fsys, cwd⟩ p.entryPoints []
    cases hep : entryPhase ⟨extractKeywords q, p, fsys, cwd⟩ with
    | none => rw [hep] at h; cases h
    | some steps =>
      by_cases hl : steps.length = 0 <;> simp [hl]
  · intro hq
    simp only [traceExecutionPath]
    have hep : entryPhase ⟨extractKeywords q, p, fsys, cwd⟩ = some [] := by
      unfold entryPhase
      exact entryPhaseGo_nil_kws _ hq _ []
    rw [hep]
    have hfb := fallback_nil_kws ⟨extractKeywords q, p, fsys, cwd⟩ hq
    show some (fallbackSteps ⟨extractKeywords q, p, fsys, cwd⟩) = some []
    rw [hfb]

/-- Cyclic project for the C7 witness: the two files import each other. -/
def projC7 : IndexedProject :=
  { root := "/p", name := "p",
    files := [{ path := "cyca.ts", size := 1 }, { path := "cycb.ts", size := 1 }],
    entryPoints := ["cyca.ts"] }

def fsC7 : List (String × String) :=
  [("/p/cyca.ts", "import x from './cycb'"),
   ("/p/cycb.ts", "import y from './cyca'")]

/-- C7 witness: the theorem applied to the cyclic project, and the
zero-keyword conjunct applied to a stop-word-only question. -/
theorem C7_witness :
    (traceExecutionPath "cyca cycb" projC7 fsC7 "/p").isSome = true ∧
      traceExecutionPath "the" projC7 fsC7 "/p" = some [] :=
  ⟨(C7_termination "cyca cycb" projC7 fsC7 "/p").1,
   (C7_termination "the" projC7 fsC7 "/p").2 (by decide)⟩

/-! ## Claim C1 — the visited set -/

/-- Project in which `authmod.ts` is reachable both through the import of
the entry file `a.ts` and as an entry point itself. -/
def projC1 : IndexedProject :=
  { root := "/p", name := "p",
    files := [{ path := "a.ts", size := 10 }, { path := "authmod.ts", size := 10 }],
    entryPoints := ["a.ts", "authmod.ts"] }

def fsC1 : List (String × String) :=
  [("/p/a.ts", "const b = require('./authmod')"),
   ("/p/authmod.ts", "authmod logic")]

/-- C1 counterexample: within one call to `trace()`, `authmod.ts` is
traced twice — once through the import followed from entry `a.ts` and
once as its own entry point (the visited set is created afresh per entry
point, `CodeTracer.ts:15`) — so its single relevant line yields two
identical steps in the same run. -/
theorem C1_counterexample :
    (traceExecutionPath "authmod" projC1 fsC1 "/p").map
        (fun l => l.map (fun st => (st.file, st.code))) =
      some [("a.ts", "const b = require('./authmod')"),
            ("authmod.ts", "authmod logic"),
            ("authmod.ts", "authmod logic")] := by
  decide

theorem followImports_nodup (ctx : TraceCtx)
    (recurse : String → List String → Option (List WalkthroughStep × List String))
    (hrec : ∀ fp v r, recurse fp v = some r → v.Nodup → r.2.Nodup) (fromFile : String) :
    ∀ (imports : List String) (steps : List WalkthroughStep) (visited : List String) r,
      followImports ctx recurse fromFile imports steps visited = some r →
      visited.Nodup → r.2.Nodup := by
  intro imports
  induction imports with
  | nil =>
    intro steps visited r h hv
    injection h with h
    rw [← h]
    exact hv
  | cons imp rest ih =>
    intro steps visited r h hv
    simp only [followImports] at h
    by_cases hm : importMatchesKeywords imp ctx.keywords = true
    · rw [if_pos hm] at h
      cases hres : resolveImportPath ctx.cwd imp fromFile ctx.project with
      | none =>
        simp only [hres] at h
        exact ih steps visited r h hv
      | some rp =>
        simp only [hres] at h
        cases hrec' : recurse rp visited with
        | none =>
          simp only [hrec'] at h
          exact Option.noConfusion h
        | some pr =>
          obtain ⟨st, vis⟩ := pr
          simp only [hrec'] at h
          exact ih (steps ++ st) vis r h (hrec rp visited (st, vis) hrec' hv)
    · rw [if_neg hm] at h
      exact ih steps visited r h hv

/-- C1 (amended): within one entry-point traversal the visited set never
acquires a duplicate — each file enters it (and is therefore scanned and
has its imports followed) at most once, which also bounds cyclic import
graphs; across entry points, however, the set is rebuilt, so a file
reachable from several entry points is traced once per entry point
(see `C1_counterexample`). -/
theorem C1_visited_nodup (ctx : TraceCtx) :
    ∀ (fuel : Nat) (fp : String) (visited : List String) r,
      traceFromFile ctx fuel fp visited = some r → visited.Nodup → r.2.Nodup := by
  intro fuel
  induction fuel with
  | zero => intro fp visited r h; cases h
  | succ f ih =>
    intro fp visited r h hv
    simp only [traceFromFile, traceStepF] at h
    by_cases hc : visited.contains fp = true
    · rw [if_pos hc] at h
      injection h with h
      rw [← h]
      exact hv
    · rw [if_neg hc] at h
      have hnotmem : fp ∉ visited := fun hm => hc ((contains_iff_mem visited fp).mpr hm)
      have hv' : (fp :: visited).Nodup := List.nodup_cons.mpr ⟨hnotmem, hv⟩
      cases hread : fsRead ctx.fsys fp with
      | none =>
        simp only [hread] at h
        injection h with h
        rw [← h]
        exact hv'
      | some content =>
        simp only [hread] at h
        exact followImports_nodup ctx _ ih fp _ _ _ r h hv'

/-- One-file project used only by the C1 witness. -/
def projC1w : IndexedProject :=
  { root := "/p", name := "p",
    files := [{ path := "a.ts", size := 1 }],
    entryPoints := ["a.ts"] }

/-- C1 witness: the amended theorem applied to a concrete traversal. -/
theorem C1_witness : (["/p/a.ts"] : List String).Nodup :=
  C1_visited_nodup ⟨["zzz"], projC1w, [("/p/a.ts", "nothing here")], "/p"⟩ 3 "/p/a.ts" []
    ([], ["/p/a.ts"]) (by decide) (by simp)

/-! ## Claim C3 — the step's `file` field -/

/-- Project indexed at `/proj` while the process runs in `/proj/sub`. -/
def projC3 : IndexedProject :=
  { root := "/proj", name := "proj",
    files := [{ path := "main.ts", size := 1 }],
    entryPoints := ["main.ts"] }

def fsC3 : List (String × String) := [("/proj/main.ts", "authcheck here")]

/-- C3 counterexample: when the working directory (`/proj/sub`) differs
from the project root (`/proj`), the produced step's `file` is
`../main.ts` — relative to the working directory — and joining the root
with it yields `/main.ts`, which is neither readable nor any indexed
file, so `file` is not a valid path relative to the project's root. -/
theorem C3_counterexample :
    (traceExecutionPath "authcheck" projC3 fsC3 "/proj/sub").map
        (fun l => l.map (fun st => st.file)) = some ["../main.ts"] ∧
      pathJoin projC3.root "../main.ts" = "/main.ts" ∧
      fsRead fsC3 "/main.ts" = none ∧
      projC3.files.map (fun f => pathJoin projC3.root f.path) = ["/proj/main.ts"] := by
  decide

theorem followImports_steps (ctx : TraceCtx)
    (recurse : String → List String → Option (List WalkthroughStep × List String))
    (P : WalkthroughStep → Prop)
    (hrec : ∀ fp v r, recurse fp v = some r → ∀ st ∈ r.1, P st) (fromFile : String) :
    ∀ (imports : List String) (steps : List WalkthroughStep) (visited : List String) r,
      followImports ctx recurse fromFile imports steps visited = some r →
      (∀ st ∈ steps, P st) → ∀ st ∈ r.1, P st := by
  intro imports
  induction imports with
  | nil =>
    intro steps visited r h hsteps st hst
    injection h with h
    rw [← h] at hst
    exact hsteps st hst
  | cons imp rest ih =>
    intro steps visited r h hsteps st hst
    simp only [followImports] at h
    by_cases hm : importMatchesKeywords imp ctx.keywords = true
    · rw [if_pos hm] at h
      cases hres : resolveImportPath ctx.cwd imp fromFile ctx.project with
      | none =>
        simp only [hres] at h
        exact ih steps visited r h hsteps st hst
      | some rp =>
        simp only [hres] at h
        cases hrec' : recurse rp visited with
        | none =>
          simp only [hrec'] at h
          exact Option.noConfusion h
        | some pr =>
          obtain ⟨st', vis⟩ := pr
          simp only [hrec'] at h
          refine ih (steps ++ st') vis r h ?_ st hst
          intro s hs
          rcases List.mem_append.mp hs with hs | hs
          · exact hsteps s hs
          · exact hrec rp visited (st', vis) hrec' s hs
    · rw [if_neg hm] at h
      exact ih steps visited r h hsteps st hst

/-- Every step the entry-point walk produces is the relative rendering of
a file that was actually read from the filesystem. -/
theorem traceFromFile_steps (ctx : TraceCtx) :
    ∀ (fuel : Nat) (fp : String) (visited : List String) r,
      traceFromFile ctx fuel fp visited = some r →
      ∀ st ∈ r.1, ∃ fp' c, st.file = pathRelative ctx.cwd ctx.cwd fp' ∧
        fsRead ctx.fsys fp' = some c := by
  intro fuel
  induction fuel with
  | zero => intro fp visited r h; cases h
  | succ f ih =>
    intro fp visited r h st hst
    simp only [traceFromFile, traceStepF] at h
    by_cases hc : visited.contains fp = true
    · rw [if_pos hc] at h
      injection h with h
      rw [← h] at hst
      cases hst
    · rw [if_neg hc] at h
      cases hread : fsRead ctx.fsys fp with
      | none =>
        simp only [hread] at h
        injection h with h
        rw [← h] at hst
        cases hst
      | some content =>
        simp only [hread] at h
        refine followImports_steps ctx _ _ ih fp _ _ _ r h ?_ st hst
        intro s hs
        refine ⟨fp, content, ?_, hread⟩
        unfold extractRelevantSpans at hs
        exact spansGo_file _ ctx.keywords fp ctx.cwd _ 0 0 s hs

theorem entryPhaseGo_steps (ctx : TraceCtx) :
    ∀ (eps : List String) (acc : List WalkthroughStep) r,
      entryPhaseGo ctx eps acc = some r →
      (∀ st ∈ acc, ∃ fp' c, st.file = pathRelative ctx.cwd ctx.cwd fp' ∧
        fsRead ctx.fsys fp' = some c) →
      ∀ st ∈ r, ∃ fp' c, st.file = pathRelative ctx.cwd ctx.cwd fp' ∧
        fsRead ctx.fsys fp' = some c := by
  intro eps
  induction eps with
  | nil =>
    intro acc r h hacc st hst
    injection h with h
    rw [← h] at hst
    exact hacc st hst
  | cons ep rest ih =>
    intro acc r h hacc st hst
    simp only [entryPhaseGo] at h
    cases htr : traceFromFile ctx (traceFuel ctx.project) (pathJoin ctx.project.root ep) [] with
    | none =>
      simp only [htr] at h
      exact Option.noConfusion h
    | some pr =>
      obtain ⟨stps, vis⟩ := pr
      simp only [htr] at h
      refine ih (acc ++ stps) r h ?_ st hst
      intro s hs
      rcases List.mem_append.mp hs with hs | hs
      · exact hacc s hs
      · exact traceFromFile_steps ctx _ _ _ _ htr s hs

/-- Every fallback step is the relative rendering of the path of an
indexed file whose cached content it was scanned from. -/
theorem fallbackSteps_steps (ctx : TraceCtx) :
    ∀ st ∈ fallbackSteps ctx,
      ∃ fp c, st.file = pathRelative ctx.cwd ctx.cwd fp ∧
        ∃ f ∈ ctx.project.files, f.path = fp ∧ f.content = some c := by
  intro st hst
  unfold fallbackSteps at hst
  obtain ⟨file, hfile, hstf⟩ := List.mem_flatMap.mp hst
  have hfiles : file ∈ ctx.project.files := by
    have h1 := List.mem_of_mem_take hfile
    rw [sortCmp_partition] at h1
    rcases List.mem_append.mp h1 with h | h <;>
      exact (List.mem_filter.mp (List.mem_filter.mp h).1).1
  cases hcont : file.content with
  | none => simp only [hcont] at hstf; cases hstf
  | some c =>
    simp only [hcont] at hstf
    by_cases hemp : c = ""
    · rw [if_pos hemp] at hstf; cases hstf
    · rw [if_neg hemp] at hstf
      unfold extractRelevantSpans at hstf
      exact ⟨file.path, c,
        spansGo_file _ ctx.keywords file.path ctx.cwd _ 0 0 st hstf,
        file, hfiles, rfl, hcont⟩

/-- C3 (amended): every step's `file` is the path of the file the step
was produced from rendered relative to the process working directory —
not to the project root; the step's source is either a file read from
disk during the entry-point walk or an indexed file's cached content in
the fallback.  Only when the working directory equals the project root
(as in the CLI, which always indexes `process.cwd()`) is `file` a
root-relative path. -/
theorem C3_file_relative_cwd (q : String) (p : IndexedProject) (fsys : List (String × String))
    (cwd : String) (steps : List WalkthroughStep)
    (h : traceExecutionPath q p fsys cwd = some steps) :
    ∀ st ∈ steps, ∃ fp c, st.file = pathRelative cwd cwd fp ∧
      (fsRead fsys fp = some c ∨ ∃ f ∈ p.files, f.path = fp ∧ f.content = some c) := by
  intro st hst
  simp only [traceExecutionPath] at h
  cases hep : entryPhase ⟨extractKeywords q, p, fsys, cwd⟩ with
  | none =>
    simp only [hep] at h
    exact Option.noConfusion h
  | some s =>
    simp only [hep] at h
    by_cases hl : s.length = 0
    · rw [if_pos hl] at h
      injection h with h
      rw [← h] at hst
      obtain ⟨fp, c, hrel, f, hf, hfp, hc⟩ :=
        fallbackSteps_steps ⟨extractKeywords q, p, fsys, cwd⟩ st hst
      exact ⟨fp, c, hrel, Or.inr ⟨f, hf, hfp, hc⟩⟩
    · rw [if_neg hl] at h
      injection h with h
      rw [← h] at hst
      obtain ⟨fp, c, hrel, hread⟩ :=
        entryPhaseGo_steps ⟨extractKeywords q, p, fsys, cwd⟩ p.entryPoints [] s hep
          (by intro s' hs'; cases hs') st hst
      exact ⟨fp, c, hrel, Or.inl hread⟩

/-- One-file project for the C3 witness, indexed at the working
directory. -/
def projC3w : IndexedProject :=
  { root := "/p", name := "p",
    files := [{ path := "w.ts", size := 1 }],
    entryPoints := ["w.ts"] }

def fsC3w : List (String × String) := [("/p/w.ts", "wkey line")]

/-- The single step the trace of `projC3w` produces. -/
def stC3w : WalkthroughStep :=
  { index := 0, file := "w.ts", lineRange := (1, 1), code := "wkey line",
    explanation := "Uses wkey in code logic",
    whyRelevant := "This line contains logic that directly involves wkey",
    linksTo := [] }

/-- C3 witness: the amended theorem applied to a concrete trace whose
root equals the working directory. -/
theorem C3_witness :
    ∃ fp c, stC3w.file = pathRelative "/p" "/p" fp ∧
      (fsRead fsC3w fp = some c ∨
        ∃ f ∈ projC3w.files, f.path = fp ∧ f.content = some c) :=
  C3_file_relative_cwd "wkey" projC3w fsC3w "/p" [stC3w] (by decide) stC3w (by decide)

end ExplainCLI
